import Mathlib

/-!
Shallow embedding of the crypto_portfolio repository's core:

* `Portfolio.get_realized_profits` (src/src/portfolio.py) — the FIFO
  lot-matching / realized-profit engine over a pandas dataframe;
* `TransactionsHandler.get_transactions_based_on_usd` and
  `TransactionsHandler._extend_transactions_dataframe`
  (src/src/modules/transactions_handler.py) — the currency unifier and
  the ingestion/dedup invariant.

Dataframes are embedded as lists of records; float columns as `ℚ`;
`Datetime` strings (format `YYYY-MM-DD HH:MM:SS`, whose lexicographic
order agrees with chronological order) as `ℕ` epoch seconds, with the
`timedelta.days` of python embedded as flooring division by 86400;
the `Pair` column `"A-B"` as its two split fields.  Pandas
`sort_values` / `sort_index` are embedded as a stable sort (`List.insertionSort`),
column-mask assignments as index-aware maps, and `Series.idxmax` on a
boolean series as "first index where true, else first index".
-/

namespace CryptoPortfolio

/-- The `Side` column: `"buy"` or `"sell"`. -/
inductive Side where
  | buy
  | sell
deriving DecidableEq, Repr, Inhabited

/-- Sort key of the `Side` column: the string sort used by
`sort_values(["Datetime", "Side"])` puts `"buy" < "sell"`. -/
def sideKey : Side → Nat
  | .buy => 0
  | .sell => 1

/-- One row of the transactions ledger (schema `COLUMNS` of
transactions_handler.py, with `Pair` split into its two symbols the way
`show_portfolio` splits it into `Symbol Buy` / `Symbol Sell`). -/
structure Tx where
  datetime : Nat
  symbolBuy : String
  symbolSell : String
  side : Side
  size : ℚ
  funds : ℚ
  fee : ℚ
  feeCurrency : String
  broker : String
deriving DecidableEq, Repr, Inhabited

/-- Comparator for `df.sort_values(["Datetime", "Side"])` in
`get_realized_profits` (line 62 of portfolio.py): primary key the
datetime, secondary key the side string (`"buy" < "sell"`).  The pandas
sort on several keys is stable, embedded as a stable insertion sort. -/
def eventLE (a b : Tx) : Prop :=
  a.datetime < b.datetime ∨
    (a.datetime = b.datetime ∧ sideKey a.side ≤ sideKey b.side)

instance : DecidableRel eventLE := fun a b => by
  unfold eventLE; exact inferInstance

instance : IsTotal Tx eventLE where
  total a b := by
    unfold eventLE
    rcases Nat.lt_trichotomy a.datetime b.datetime with h | h | h
    · exact Or.inl (Or.inl h)
    · rcases Nat.le_total (sideKey a.side) (sideKey b.side) with h2 | h2
      · exact Or.inl (Or.inr ⟨h, h2⟩)
      · exact Or.inr (Or.inr ⟨h.symm, h2⟩)
    · exact Or.inr (Or.inl h)

instance : IsTrans Tx eventLE where
  trans a b c hab hbc := by
    unfold eventLE at *
    rcases hab with h1 | ⟨h1, h1s⟩ <;> rcases hbc with h2 | ⟨h2, h2s⟩
    · exact Or.inl (h1.trans h2)
    · exact Or.inl (h2 ▸ h1)
    · exact Or.inl (h1 ▸ h2)
    · exact Or.inr ⟨h1.trans h2, h1s.trans h2s⟩

/-- One row of the per-asset frame after the `Price` and `Total Size`
columns are added (portfolio.py lines 65-66). -/
structure Row where
  datetime : Nat
  side : Side
  size : ℚ
  funds : ℚ
  price : ℚ
  totalSize : ℚ
  broker : String
deriving DecidableEq, Repr, Inhabited

/-- `df["Price"] = -df["Funds"] / df["Size"]` and
`df["Total Size"] = df.groupby(["Symbol Buy"])["Size"].cumsum()`:
running cumulative sum of `Size` down one asset's (datetime, side)-sorted
rows, with the per-row price. -/
def addTotalSize (acc : ℚ) : List Tx → List Row
  | [] => []
  | t :: ts =>
    { datetime := t.datetime, side := t.side, size := t.size,
      funds := t.funds, price := -t.funds / t.size,
      totalSize := acc + t.size, broker := t.broker }
      :: addTotalSize (acc + t.size) ts

/-- The mutable per-buy-order state of `df_sym_buy` (portfolio.py lines
83-89): the `Datetime`, `Size`, `Funds`, `Total Size` columns plus the
working columns `Sold Size`, `Sold Value`, `Profits`, `Held days`,
`To be taxed` initialised at lines 85-89. -/
structure Lot where
  datetime : Nat
  size : ℚ
  funds : ℚ
  totalSize : ℚ
  soldSize : ℚ := 0
  soldValue : ℚ := 0
  profits : ℚ := 0
  heldDays : ℤ := 0
  toBeTaxed : Bool := false
deriving DecidableEq, Repr, Inhabited

/-- A buy `Row` becomes the initial lot state (portfolio.py 83-89). -/
def initLot (r : Row) : Lot :=
  { datetime := r.datetime, size := r.size, funds := r.funds,
    totalSize := r.totalSize }

/-- One emitted realized-profit record (`row_new`, portfolio.py 146-153). -/
structure Rec where
  datetime : Nat
  symbolBuy : String
  fundsPaid : ℚ
  fundsReceived : ℚ
  profitLoss : ℚ
  toBeTaxed : ℚ
deriving DecidableEq, Repr, Inhabited

/-- `(sell_timestamp - lot_timestamp).days`: python `timedelta.days`
floor-divides the signed difference by the number of seconds per day. -/
def heldDaysFn (buyDt sellDt : Nat) : ℤ :=
  ((sellDt : ℤ) - (buyDt : ℤ)).fdiv 86400

/-- Boundary-lot predicate of portfolio.py line 98:
`df_sym_buy["Total Size"] + row["Size"] >= 0`. -/
def coveredBy (s : Tx) (l : Lot) : Bool :=
  decide (0 ≤ l.totalSize + s.size)

/-- `first_dt = (df_sym_buy["Total Size"] + row["Size"] >= 0).idxmax()`
(portfolio.py line 98): pandas `idxmax` of a boolean series returns the
first index where it is `True`, and the first index of the frame when it
is everywhere `False`. -/
def firstDt (lots : List Lot) (s : Tx) : Nat :=
  let i := lots.findIdx (coveredBy s)
  if i < lots.length then i else 0

/-- Portfolio.py lines 96 and 100-102, on a single lot: for past lots
(`Datetime <= dt`) replace `Total Size` by `max(0, Total Size + Size)`. -/
def clampLot (s : Tx) (l : Lot) : Lot :=
  if l.datetime ≤ s.datetime
  then { l with totalSize := max 0 (l.totalSize + s.size) }
  else l

/-- Portfolio.py lines 96 and 100-102: the `Total Size` reduction applied
to the whole (`past`-masked) lot column. -/
def applyPastTS (lots : List Lot) (s : Tx) : List Lot :=
  lots.map (clampLot s)

/-- `size_ratio` of portfolio.py line 104, read off the boundary lot
after the `Total Size` reduction. -/
def sellSizeRatio (lots : List Lot) (s : Tx) : ℚ :=
  let b := (applyPastTS lots s).getD (firstDt lots s) default
  1 - b.totalSize / b.size

/-- `funds_share = size_ratio * funds(first_dt)` (portfolio.py line 106). -/
def sellFundsShare (lots : List Lot) (s : Tx) : ℚ :=
  sellSizeRatio lots s *
    ((applyPastTS lots s).getD (firstDt lots s) default).funds

/-- `funds_paid = funds_share + sum(Funds of lots before first_dt)`
(portfolio.py line 108). -/
def sellFundsPaid (lots : List Lot) (s : Tx) : ℚ :=
  sellFundsShare lots s +
    (((applyPastTS lots s).take (firstDt lots s)).map (·.funds)).sum

/-- The column updates of portfolio.py lines 110-140 on the lot at
position `i`, already carrying the updated `Total Size`:
for `i <= first_dt` set `Sold Size`, reduce `Size`, set `Sold Value`,
`Profits` (via `funds_share` at the boundary), `Held days`,
`To be taxed`; zero `Funds` before the boundary and subtract
`funds_share` at the boundary.  Lots after the boundary are untouched. -/
def updateLot (s : Tx) (fd : Nat) (share : ℚ) (i : Nat) (l : Lot) : Lot :=
  if i ≤ fd then
    let soldSize := l.size - l.totalSize
    let soldValue := soldSize * (-s.funds / s.size)
    { l with
      soldSize := soldSize
      size := l.totalSize
      soldValue := soldValue
      profits := if i < fd then soldValue + l.funds else soldValue + share
      heldDays := heldDaysFn l.datetime s.datetime
      toBeTaxed := heldDaysFn l.datetime s.datetime ≤ 365
      funds := if i < fd then 0 else l.funds - share }
  else l

/-- Apply `updateLot` down the list, numbering positions from `i`. -/
def updLots (s : Tx) (fd : Nat) (share : ℚ) : Nat → List Lot → List Lot
  | _, [] => []
  | i, l :: ls => updateLot s fd share i l :: updLots s fd share (i + 1) ls

/-- The whole per-sell state transition of the loop body
(portfolio.py lines 90-140): reduce past `Total Size`, then perform the
masked column updates relative to the boundary lot. -/
def processSellLots (lots : List Lot) (s : Tx) : List Lot :=
  updLots s (firstDt lots s) (sellFundsShare lots s) 0 (applyPastTS lots s)

/-- `profits_to_be_taxed` (portfolio.py line 135): sum of `Profits` over
the rows where `To be taxed` holds or `Profits` is negative, read from
the post-update state. -/
def profitsToBeTaxed (lots : List Lot) : ℚ :=
  ((lots.filter fun l => l.toBeTaxed || decide (l.profits < 0)).map
    (·.profits)).sum

/-- The record `row_new` emitted for one sell (portfolio.py 142-153). -/
def processSellRec (sym : String) (lots : List Lot) (s : Tx) : Rec :=
  { datetime := s.datetime
    symbolBuy := sym
    fundsPaid := sellFundsPaid lots s
    fundsReceived := s.funds
    profitLoss := sellFundsPaid lots s + s.funds
    toBeTaxed := profitsToBeTaxed (processSellLots lots s) }

/-- The assertion of portfolio.py line 144:
`np.isclose(funds_paid + funds_received, df_sym_buy["Profits"].sum())`,
embedded exactly over `ℚ`. -/
def sellAssertHolds (lots : List Lot) (s : Tx) : Bool :=
  sellFundsPaid lots s + s.funds ==
    ((processSellLots lots s).map (·.profits)).sum

/-- One asset's rows in engine order: that asset's events sorted by
`(Datetime, Side)` with the cumulative `Total Size`, dummy rows removed
afterwards (portfolio.py lines 62-68). -/
def rowsFor (sym : String) (txs : List Tx) : List Row :=
  (addTotalSize 0
      ((txs.filter fun t => t.symbolBuy == sym).insertionSort eventLE)).filter
    fun r => !(r.broker == "Dummy")

/-- `df.loc[sym, "sell"]`: the asset's sell rows in datetime order. -/
def sellsFor (sym : String) (txs : List Tx) : List Row :=
  (rowsFor sym txs).filter fun r => r.side == Side.sell

/-- `df.loc[sym, "buy"]` turned into the initial `df_sym_buy` lot list. -/
def lotsFor (sym : String) (txs : List Tx) : List Lot :=
  ((rowsFor sym txs).filter fun r => r.side == Side.buy).map initLot

/-- A sell `Row` as the `Tx` consumed by the per-sell step (only the
`Datetime`, `Size`, `Funds` columns of the sell are read there; `Price`
is itself `-Funds/Size`). -/
def rowToTx (sym : String) (r : Row) : Tx :=
  { datetime := r.datetime, symbolBuy := sym, symbolSell := "USD",
    side := r.side, size := r.size, funds := r.funds, fee := 0,
    feeCurrency := "USD", broker := r.broker }

/-- The per-asset loop of `get_realized_profits` (portfolio.py 74-154):
skip the asset when it has no sell rows, otherwise walk its sells in
order, threading the lot state and appending one record per sell. -/
def processAsset (sym : String) (txs : List Tx) : List Rec :=
  let sells := (sellsFor sym txs).map (rowToTx sym)
  if sells.isEmpty then []
  else
    (sells.foldl
      (fun st s =>
        (processSellLots st.1 s, st.2 ++ [processSellRec sym st.1 s]))
      (lotsFor sym txs, [])).2

/-- `df.index.levels[0]`: the assets appearing in the frame. -/
def symbolsOf (txs : List Tx) : List String :=
  (((txs.filter fun t => !(t.broker == "Dummy")).map (·.symbolBuy))).dedup

/-- `Portfolio.get_realized_profits`: the realized-profit table, one
record per sell event per asset. -/
def getRealizedProfits (txs : List Tx) : List Rec :=
  (symbolsOf txs).flatMap fun sym => processAsset sym txs

/-- What `updateLot` does to a lot strictly before the boundary
(the `df_sym_buy.index < first_dt` masks of portfolio.py 110-138). -/
def updateLotBefore (s : Tx) (l : Lot) : Lot :=
  { l with
    soldSize := l.size - l.totalSize
    size := l.totalSize
    soldValue := (l.size - l.totalSize) * (-s.funds / s.size)
    profits := (l.size - l.totalSize) * (-s.funds / s.size) + l.funds
    heldDays := heldDaysFn l.datetime s.datetime
    toBeTaxed := heldDaysFn l.datetime s.datetime ≤ 365
    funds := 0 }

/-- What `updateLot` does to the boundary lot itself
(the `first_dt` rows of portfolio.py 110-140). -/
def updateLotBound (s : Tx) (share : ℚ) (l : Lot) : Lot :=
  { l with
    soldSize := l.size - l.totalSize
    size := l.totalSize
    soldValue := (l.size - l.totalSize) * (-s.funds / s.size)
    profits := (l.size - l.totalSize) * (-s.funds / s.size) + share
    heldDays := heldDaysFn l.datetime s.datetime
    toBeTaxed := heldDaysFn l.datetime s.datetime ≤ 365
    funds := l.funds - share }

/-- Well-formedness of one sell against the current lot state, the
conditions under which the masked dataframe surgery of the loop body is
a genuine FIFO consumption step: some lot covers the sell (the
`idxmax` boundary search actually finds a `True`), every lot up to the
boundary lies in the past of the sell, `Total Size` up to the boundary
is the prefix sum of the current sizes, the sell size is nonpositive
and all current sizes are nonnegative. -/
def stepOKb (lots : List Lot) (s : Tx) : Bool :=
  let fd := lots.findIdx (coveredBy s)
  decide (fd < lots.length) &&
  ((lots.take (fd + 1)).all fun l => decide (l.datetime ≤ s.datetime)) &&
  ((List.range (fd + 1)).all fun i =>
    ((lots.take (i + 1)).map (·.size)).sum ==
      (lots.getD i default).totalSize) &&
  decide (s.size ≤ 0) &&
  (lots.all fun l => decide (0 ≤ l.size))

/-- Well-formedness of a whole sell sequence: every step is `stepOKb`
on the state reached so far. -/
def runOKb : List Lot → List Tx → Bool
  | _, [] => true
  | lots, s :: ss => stepOKb lots s && runOKb (processSellLots lots s) ss

/-- The lot state after a sequence of sells. -/
def lotsAfter (lots : List Lot) (sells : List Tx) : List Lot :=
  sells.foldl processSellLots lots

/-! ### Currency unifier (`TransactionsHandler`, transactions_handler.py) -/

/-- The historical-price collaborator: `(symbol, day)` to that day's
`(open, close)` row of `historical_data/<symbol>.csv`. -/
def mid (hist : String → Nat → ℚ × ℚ) (sym : String) (day : Nat) : ℚ :=
  ((hist sym day).1 + (hist sym day).2) / 2

/-- `df["day"] = df["Datetime"].str[:10]`: the calendar day of an event. -/
def txDay (t : Tx) : Nat := t.datetime / 86400

/-- `"sell" if x == "buy" else "buy"` (transactions_handler.py 199). -/
def flipSide : Side → Side
  | .buy => .sell
  | .sell => .buy

/-- The synthetic counter-leg built for a swap row in
`get_transactions_based_on_usd` (transactions_handler.py 183-203):
pair rewritten to `<counter>-USD`, side flipped, `Size` set to the old
`Funds`, `Funds` to `-(mid price) * Funds`, `Fee` rescaled by the fee
currency's mid price, fee currency to USD. -/
def swapAddRow (hist : String → Nat → ℚ × ℚ) (t : Tx) : Tx :=
  { t with
    symbolBuy := t.symbolSell
    symbolSell := "USD"
    side := flipSide t.side
    size := t.funds
    funds := -(mid hist t.symbolSell (txDay t)) * t.funds
    fee := mid hist t.feeCurrency (txDay t) * t.fee
    feeCurrency := "USD" }

/-- The rewritten original leg of a swap row (transactions_handler.py
214-217): pair `<base>-USD`, `Funds` the negative of the synthetic
leg's funds, fee moved to the synthetic leg. -/
def swapOrgRow (hist : String → Nat → ℚ × ℚ) (t : Tx) : Tx :=
  { t with
    symbolSell := "USD"
    funds := -(swapAddRow hist t).funds
    fee := 0
    feeCurrency := "USD" }

/-- `df_return.sort_values("Datetime")` comparator. -/
def txLE (a b : Tx) : Prop := a.datetime ≤ b.datetime

instance : DecidableRel txLE := fun a b => by
  unfold txLE; exact inferInstance

instance : IsTotal Tx txLE where
  total a b := Nat.le_total a.datetime b.datetime

instance : IsTrans Tx txLE where
  trans _ _ _ hab hbc := Nat.le_trans hab hbc

/-- `TransactionsHandler.get_transactions_based_on_usd`
(transactions_handler.py 168-229): already-unified ledgers pass through;
otherwise every swap row (counter asset not USD) is split into its
rewritten original leg and its synthetic counter-leg, concatenated with
the already-USD rows and re-sorted by datetime. -/
def getTransactionsBasedOnUsd (hist : String → Nat → ℚ × ℚ)
    (txs : List Tx) : List Tx :=
  if (txs.all fun t => t.symbolSell == "USD") &&
      (txs.all fun t => t.feeCurrency == "USD") then txs
  else
    let swapsOrg := txs.filter fun t => !(t.symbolSell == "USD")
    ((swapsOrg.map (swapOrgRow hist)) ++ (swapsOrg.map (swapAddRow hist)) ++
        (txs.filter fun t => t.symbolSell == "USD")).insertionSort txLE

/-! ### Ingestion (`_extend_transactions_dataframe`) -/

/-- The `drop_duplicates(subset=["Datetime", "Pair", "Side"])` key. -/
def txKey (t : Tx) : Nat × String × String × Nat :=
  (t.datetime, t.symbolBuy, t.symbolSell, sideKey t.side)

/-- `drop_duplicates` keeping the first occurrence of each key. -/
def dedupByKey (seen : List (Nat × String × String × Nat)) :
    List Tx → List Tx
  | [] => []
  | t :: ts =>
    if txKey t ∈ seen then dedupByKey seen ts
    else t :: dedupByKey (txKey t :: seen) ts

/-- `TransactionsHandler._extend_transactions_dataframe`
(transactions_handler.py 33-40): concatenate the new rows, sort by
`Datetime`, drop duplicate `(Datetime, Pair, Side)` keys. -/
def extendTransactions (ledger df : List Tx) : List Tx :=
  dedupByKey [] ((ledger ++ df).insertionSort txLE)

/-! ### Concrete inputs used by the closed theorems and witnesses -/

/-- A reference-currency ledger row as the engine sees it. -/
def mkTx (dt : Nat) (sym : String) (sd : Side) (sz f : ℚ) : Tx :=
  { datetime := dt, symbolBuy := sym, symbolSell := "USD", side := sd,
    size := sz, funds := f, fee := 0, feeCurrency := "USD", broker := "T" }

/-- Spec §8 FIFO scenario: buy lots `(t1,100,-1000)`, `(t2,50,-600)`,
sell `(t3,-120,+1500)`. -/
def fifoLedger : List Tx :=
  [mkTx 100 "AAA" .buy 100 (-1000),
   mkTx 200 "AAA" .buy 50 (-600),
   mkTx 300 "AAA" .sell (-120) 1500]

/-- Spec §8 end-to-end scenario: buy 1 BTC for -10000, buy 1 BTC for
-20000, sell 1.5 BTC for +25000. -/
def btcLedger : List Tx :=
  [mkTx 100 "BTC" .buy 1 (-10000),
   mkTx 200 "BTC" .buy 1 (-20000),
   mkTx 300 "BTC" .sell (-3/2) 25000]

/-- Oversold ledger: one buy of size 1, then a sell of size 2. -/
def oversoldLedger : List Tx :=
  [mkTx 100 "AAA" .buy 1 (-1000), mkTx 200 "AAA" .sell (-2) 3000]

/-- The lot state the engine derives for the oversold ledger. -/
def oversoldLots : List Lot := lotsFor "AAA" oversoldLedger

/-- The oversold sell event. -/
def oversoldSell : Tx := mkTx 200 "AAA" .sell (-2) 3000

/-- The lot state the engine derives for the FIFO scenario. -/
def fifoLots : List Lot := lotsFor "AAA" fifoLedger

/-- The FIFO scenario's sell event. -/
def fifoSell : Tx := mkTx 300 "AAA" .sell (-120) 1500

/-- A single two-coin lot acquired at epoch second 0. -/
def taxLots : List Lot := [{ datetime := 0, size := 2, funds := -10, totalSize := 2 }]

/-- A sell of one coin 151 days after acquisition. -/
def tax151Sell : Tx := mkTx (151 * 86400) "AAA" .sell (-1) 8

/-- A sell of one coin 517 days after acquisition. -/
def tax517Sell : Tx := mkTx (517 * 86400) "AAA" .sell (-1) 8

/-- A ledger whose asset "NOP" has one buy and no sell. -/
def buyOnlyLedger : List Tx :=
  [mkTx 100 "NOP" .buy 5 (-50), mkTx 100 "AAA" .buy 1 (-10),
   mkTx 200 "AAA" .sell (-1) 20]

/-- A ledger with a sell and a buy sharing one timestamp, listed with
the sell first. -/
def c8Ledger : List Tx :=
  [mkTx 100 "AAA" .sell (-1) 10, mkTx 100 "AAA" .buy 2 (-8)]

/-- A constant historical-price table: every (symbol, day) has
open 1 and close 3, so every mid price is 2. -/
def c6Hist : String → Nat → ℚ × ℚ := fun _ _ => (1, 3)

/-- A swap row: WECO bought against BNB on a DEX. -/
def c6Tx : Tx :=
  { datetime := 864000, symbolBuy := "WECO", symbolSell := "BNB",
    side := .buy, size := 100, funds := -2, fee := 1/2,
    feeCurrency := "BNB", broker := "PancakeSwap" }

/-- A ledger holding one USD row and one swap row. -/
def c6Ledger : List Tx := [mkTx 100 "BTC" .buy 1 (-10), c6Tx]

/-- A two-row ledger, sorted by datetime with distinct keys. -/
def c10Ledger : List Tx :=
  [mkTx 100 "AAA" .buy 1 (-10), mkTx 200 "BBB" .buy 2 (-20)]

/-- A batch whose single row is already present in `c10Ledger`. -/
def c10Batch : List Tx := [mkTx 100 "AAA" .buy 1 (-10)]

/-! ## Lemmas about the per-sell step -/

theorem clampLot_funds (s : Tx) (l : Lot) : (clampLot s l).funds = l.funds := by
  unfold clampLot; split <;> rfl

theorem clampLot_datetime (s : Tx) (l : Lot) :
    (clampLot s l).datetime = l.datetime := by
  unfold clampLot; split <;> rfl

theorem clampLot_size (s : Tx) (l : Lot) : (clampLot s l).size = l.size := by
  unfold clampLot; split <;> rfl

theorem clampLot_profits (s : Tx) (l : Lot) :
    (clampLot s l).profits = l.profits := by
  unfold clampLot; split <;> rfl

theorem clampLot_of_zero (s : Tx) (l : Lot) (hp : l.datetime ≤ s.datetime)
    (hneg : l.totalSize + s.size < 0) :
    clampLot s l = { l with totalSize := 0 } := by
  unfold clampLot
  rw [if_pos hp, max_eq_left (le_of_lt hneg)]

theorem clampLot_of_nonneg (s : Tx) (l : Lot) (hp : l.datetime ≤ s.datetime)
    (hge : 0 ≤ l.totalSize + s.size) :
    clampLot s l = { l with totalSize := l.totalSize + s.size } := by
  unfold clampLot
  rw [if_pos hp, max_eq_right hge]

theorem updateLot_of_lt {s : Tx} {fd : Nat} {share : ℚ} {i : Nat} {l : Lot}
    (h : i < fd) : updateLot s fd share i l = updateLotBefore s l := by
  simp [updateLot, updateLotBefore, h, Nat.le_of_lt h]

theorem updateLot_of_eq {s : Tx} {fd : Nat} {share : ℚ} {l : Lot} :
    updateLot s fd share fd l = updateLotBound s share l := by
  simp [updateLot, updateLotBound]

theorem updateLot_of_gt {s : Tx} {fd : Nat} {share : ℚ} {i : Nat} {l : Lot}
    (h : fd < i) : updateLot s fd share i l = l := by
  simp [updateLot, Nat.not_le.mpr h]

theorem updLots_append (s : Tx) (fd : Nat) (share : ℚ) :
    ∀ (xs ys : List Lot) (i : Nat),
      updLots s fd share i (xs ++ ys) =
        updLots s fd share i xs ++ updLots s fd share (i + xs.length) ys
  | [], ys, i => by simp [updLots]
  | x :: xs, ys, i => by
    show updateLot s fd share i x :: updLots s fd share (i + 1) (xs ++ ys) = _
    rw [updLots_append s fd share xs ys (i + 1)]
    show _ = updateLot s fd share i x ::
      (updLots s fd share (i + 1) xs ++
        updLots s fd share (i + (xs.length + 1)) ys)
    rw [show i + (xs.length + 1) = (i + 1) + xs.length by omega]

theorem updLots_of_gt (s : Tx) (fd : Nat) (share : ℚ) :
    ∀ (xs : List Lot) (i : Nat), fd < i → updLots s fd share i xs = xs
  | [], _, _ => rfl
  | x :: xs, i, h => by
    rw [updLots, updateLot_of_gt h,
      updLots_of_gt s fd share xs (i + 1) (Nat.lt_succ_of_lt h)]

theorem updLots_of_le (s : Tx) (fd : Nat) (share : ℚ) :
    ∀ (xs : List Lot) (i : Nat), i + xs.length ≤ fd →
      updLots s fd share i xs = xs.map (updateLotBefore s)
  | [], _, _ => rfl
  | x :: xs, i, h => by
    have hlen : (x :: xs).length = xs.length + 1 := rfl
    rw [hlen] at h
    rw [updLots, updateLot_of_lt (by omega),
      updLots_of_le s fd share xs (i + 1) (by omega), List.map_cons]

theorem length_updLots (s : Tx) (fd : Nat) (share : ℚ) :
    ∀ (xs : List Lot) (i : Nat), (updLots s fd share i xs).length = xs.length
  | [], _ => rfl
  | x :: xs, i => by
    rw [updLots, List.length_cons, List.length_cons,
      length_updLots s fd share xs (i + 1)]

theorem updLots_getD (s : Tx) (fd : Nat) (share : ℚ) :
    ∀ (xs : List Lot) (i j : Nat), j < xs.length →
      (updLots s fd share i xs).getD j default =
        updateLot s fd share (i + j) (xs.getD j default)
  | x :: xs, i, 0, _ => by simp [updLots]
  | x :: xs, i, j + 1, h => by
    have h' : j < xs.length := by simpa using Nat.lt_of_succ_lt_succ h
    show (updLots s fd share (i + 1) xs).getD j default = _
    rw [updLots_getD s fd share xs (i + 1) j h',
      show (i + 1) + j = i + (j + 1) by omega]
    rfl

theorem findIdx_take_not {α : Type} (p : α → Bool) :
    ∀ (l : List α) (x : α), x ∈ l.take (l.findIdx p) → p x = false := by
  intro l
  induction l with
  | nil => intro x hx; simp at hx
  | cons a t ih =>
    intro x hx
    rw [List.findIdx_cons] at hx
    by_cases hpa : p a
    · simp [hpa] at hx
    · simp only [Bool.not_eq_true] at hpa
      rw [hpa] at hx
      simp only [cond_false, List.take_succ_cons] at hx
      rcases List.mem_cons.mp hx with rfl | hx
      · exact hpa
      · exact ih x hx

theorem findIdx_getD_true {α : Type} [Inhabited α] (p : α → Bool) :
    ∀ l : List α, l.findIdx p < l.length →
      p (l.getD (l.findIdx p) default) = true := by
  intro l
  induction l with
  | nil => intro h; simp at h
  | cons a t ih =>
    intro h
    rw [List.findIdx_cons]
    by_cases hpa : p a
    · simp [hpa]
    · simp only [Bool.not_eq_true] at hpa
      rw [List.findIdx_cons, hpa] at h
      simp only [cond_false] at h ⊢
      rw [hpa]
      simp only [cond_false, List.getD_cons_succ]
      exact ih (by simpa using Nat.lt_of_succ_lt_succ h)

theorem sum_profits_zeroTS (s : Tx) :
    ∀ A : List Lot,
      (((A.map fun l => { l with totalSize := (0:ℚ) }).map
          (updateLotBefore s)).map (·.profits)).sum =
        (A.map (·.size)).sum * (-s.funds / s.size) + (A.map (·.funds)).sum := by
  intro A
  induction A with
  | nil => simp
  | cons x xs ih =>
    simp only [List.map_cons, List.sum_cons, ih]
    simp only [updateLotBefore]
    ring

theorem addTotalSize_mem (acc : ℚ) :
    ∀ (ts : List Tx) (r : Row), r ∈ addTotalSize acc ts →
      ∃ t ∈ ts, r.side = t.side ∧ r.broker = t.broker := by
  intro ts
  induction ts generalizing acc with
  | nil => intro r hr; simp [addTotalSize] at hr
  | cons t ts ih =>
    intro r hr
    rw [addTotalSize] at hr
    rcases List.mem_cons.mp hr with rfl | hr
    · exact ⟨t, List.mem_cons_self t ts, rfl, rfl⟩
    · obtain ⟨u, hu, h⟩ := ih (acc + t.size) r hr
      exact ⟨u, List.mem_cons_of_mem t hu, h⟩

theorem foldl_recs_symbol (sym : String) :
    ∀ (sells : List Tx) (lots : List Lot) (acc : List Rec),
      (∀ r ∈ acc, r.symbolBuy = sym) →
      ∀ r ∈ (sells.foldl
          (fun st s => (processSellLots st.1 s, st.2 ++ [processSellRec sym st.1 s]))
          (lots, acc)).2, r.symbolBuy = sym := by
  intro sells
  induction sells with
  | nil => intro lots acc hacc r hr; exact hacc r hr
  | cons s ss ih =>
    intro lots acc hacc r hr
    rw [List.foldl_cons] at hr
    apply ih (processSellLots lots s) (acc ++ [processSellRec sym lots s]) _ r hr
    intro x hx
    rcases List.mem_append.mp hx with hx | hx
    · exact hacc x hx
    · rw [List.mem_singleton.mp hx]
      rfl

theorem processAsset_symbolBuy (sym : String) (txs : List Tx) :
    ∀ r ∈ processAsset sym txs, r.symbolBuy = sym := by
  intro r hr
  rw [processAsset] at hr
  split at hr
  · simp at hr
  · exact foldl_recs_symbol sym _ _ [] (by intro x hx; simp at hx) r hr

theorem flatMap_filter_of_nil {α β : Type} (f : α → List β) (q : α → Bool) :
    ∀ l : List α, (∀ x ∈ l, q x = false → f x = []) →
      l.flatMap f = (l.filter q).flatMap f := by
  intro l
  induction l with
  | nil => intro h; rfl
  | cons a t ih =>
    intro h
    rw [List.flatMap_cons, List.filter_cons]
    by_cases hq : q a
    · rw [if_pos hq, List.flatMap_cons,
        ih (fun x hx hqx => h x (List.mem_cons_of_mem a hx) hqx)]
    · rw [if_neg hq, h a (List.mem_cons_self a t) (by simpa using hq),
        List.nil_append,
        ih (fun x hx hqx => h x (List.mem_cons_of_mem a hx) hqx)]

theorem addTotalSize_getD :
    ∀ (ts : List Tx) (acc : ℚ) (j : Nat), j < ts.length →
      ((addTotalSize acc ts).getD j default).totalSize
        = acc + ((ts.take (j + 1)).map (·.size)).sum := by
  intro ts
  induction ts with
  | nil => intro acc j h; simp at h
  | cons t ts ih =>
    intro acc j h
    cases j with
    | zero => simp [addTotalSize]
    | succ j =>
      rw [addTotalSize]
      simp only [List.getD_cons_succ, List.take_succ_cons, List.map_cons,
        List.sum_cons]
      rw [ih (acc + t.size) j (by simpa using Nat.lt_of_succ_lt_succ h)]
      ring

theorem take_succ_getD {α : Type} [Inhabited α] (l : List α) (n : Nat)
    (h : n < l.length) :
    l.take (n + 1) = l.take n ++ [l.getD n default] := by
  rw [List.take_succ]
  congr 1
  rw [List.getD_eq_getElem _ _ h, List.getElem?_eq_getElem h]
  rfl

theorem getD_of_le {α : Type} [Inhabited α] (l : List α) (n : Nat)
    (h : l.length ≤ n) : l.getD n default = default := by
  simp [List.getD_eq_getElem?_getD, List.getElem?_eq_none h]

theorem getD_mem_take {α : Type} [Inhabited α] (l : List α) (i n : Nat)
    (hi : i < n) (hn : n ≤ l.length) : l.getD i default ∈ l.take n := by
  have hitk : i < (l.take n).length := by
    rw [List.length_take]; omega
  have heq : (l.take n).getD i default = l.getD i default := by
    rw [List.getD_eq_getElem _ _ hitk, List.getElem_take,
      List.getD_eq_getElem _ _ (by omega)]
  rw [← heq, List.getD_eq_getElem _ _ hitk]
  exact List.getElem_mem hitk

theorem length_processSellLots (lots : List Lot) (s : Tx) :
    (processSellLots lots s).length = lots.length := by
  rw [processSellLots, length_updLots, applyPastTS, List.length_map]

theorem applyPastTS_getD (lots : List Lot) (s : Tx) (i : Nat)
    (hi : i < lots.length) :
    (applyPastTS lots s).getD i default = clampLot s (lots.getD i default) := by
  rw [applyPastTS]
  rw [List.getD_eq_getElem _ _
    (show i < (List.map (clampLot s) lots).length by
      rw [List.length_map]; exact hi)]
  rw [List.getElem_map, List.getD_eq_getElem _ _ hi]

theorem processSellLots_getD (lots : List Lot) (s : Tx) (i : Nat)
    (hi : i < lots.length) :
    (processSellLots lots s).getD i default =
      updateLot s (firstDt lots s) (sellFundsShare lots s) i
        (clampLot s (lots.getD i default)) := by
  have hlen : i < (applyPastTS lots s).length := by
    rw [applyPastTS, List.length_map]; exact hi
  rw [processSellLots, updLots_getD _ _ _ _ 0 i hlen, Nat.zero_add,
    applyPastTS_getD lots s i hi]

theorem stepOKb_unpack (lots : List Lot) (s : Tx) (h : stepOKb lots s = true) :
    lots.findIdx (coveredBy s) < lots.length ∧
    (∀ l ∈ lots.take (lots.findIdx (coveredBy s) + 1), l.datetime ≤ s.datetime) ∧
    (∀ i ≤ lots.findIdx (coveredBy s),
      ((lots.take (i + 1)).map (·.size)).sum = (lots.getD i default).totalSize) ∧
    s.size ≤ 0 ∧ (∀ l ∈ lots, 0 ≤ l.size) := by
  rw [stepOKb] at h
  simp only [Bool.and_eq_true, decide_eq_true_eq, List.all_eq_true,
    beq_iff_eq] at h
  obtain ⟨⟨⟨⟨h1, h2⟩, h3⟩, h4⟩, h5⟩ := h
  refine ⟨h1, h2, ?_, h4, h5⟩
  intro i hi
  exact h3 i (List.mem_range.mpr (Nat.lt_succ_of_le hi))

theorem step_size_mono (lots : List Lot) (s : Tx) (h : stepOKb lots s = true) :
    ∀ i : Nat,
      ((processSellLots lots s).getD i default).size ≤ (lots.getD i default).size ∧
      0 ≤ ((processSellLots lots s).getD i default).size := by
  obtain ⟨h1, h2, h3, h4, h5⟩ := stepOKb_unpack lots s h
  have hfd : firstDt lots s = lots.findIdx (coveredBy s) := by
    unfold firstDt; simp [h1]
  have hlt : firstDt lots s < lots.length := by rw [hfd]; exact h1
  have h2' : ∀ l ∈ lots.take (firstDt lots s + 1), l.datetime ≤ s.datetime := by
    rw [hfd]; exact h2
  have h3' : ∀ i ≤ firstDt lots s,
      ((lots.take (i + 1)).map (·.size)).sum = (lots.getD i default).totalSize := by
    rw [hfd]; exact h3
  have hnotcov : ∀ i, i < firstDt lots s →
      (lots.getD i default).totalSize + s.size < 0 := by
    intro i hifd
    have hcovi : coveredBy s (lots.getD i default) = false := by
      apply findIdx_take_not (coveredBy s) lots
      rw [← hfd]
      exact getD_mem_take lots i (firstDt lots s) hifd (le_of_lt hlt)
    simpa [coveredBy, not_le] using hcovi
  intro i
  by_cases hi : i < lots.length
  · have hgd := processSellLots_getD lots s i hi
    have hmem : lots.getD i default ∈ lots := by
      rw [List.getD_eq_getElem _ _ hi]
      exact List.getElem_mem hi
    have hszi : 0 ≤ (lots.getD i default).size := h5 _ hmem
    rcases Nat.lt_trichotomy i (firstDt lots s) with hifd | hifd | hifd
    · have hpasti : (lots.getD i default).datetime ≤ s.datetime :=
        h2' _ (getD_mem_take lots i (firstDt lots s + 1) (by omega) (by omega))
      rw [hgd, clampLot_of_zero s _ hpasti (hnotcov i hifd),
        updateLot_of_lt hifd, updateLotBefore]
      exact ⟨hszi, le_refl 0⟩
    · rw [hifd] at hgd ⊢
      have hpastb : (lots.getD (firstDt lots s) default).datetime ≤ s.datetime :=
        h2' _ (getD_mem_take lots (firstDt lots s) (firstDt lots s + 1)
          (Nat.lt_succ_self _) (by omega))
      have hcovb : coveredBy s (lots.getD (firstDt lots s) default) = true := by
        have := findIdx_getD_true (coveredBy s) lots h1
        rwa [← hfd] at this
      have hge : (0:ℚ) ≤ (lots.getD (firstDt lots s) default).totalSize + s.size := by
        simpa [coveredBy] using hcovb
      have hts : ((lots.take (firstDt lots s + 1)).map (·.size)).sum
          = (lots.getD (firstDt lots s) default).totalSize := h3' _ le_rfl
      have hsplit2 : ((lots.take (firstDt lots s + 1)).map (·.size)).sum
          = ((lots.take (firstDt lots s)).map (·.size)).sum
            + (lots.getD (firstDt lots s) default).size := by
        rw [take_succ_getD lots (firstDt lots s) hlt, List.map_append,
          List.sum_append]
        simp
      have hbound : (lots.getD (firstDt lots s) default).totalSize + s.size
          ≤ (lots.getD (firstDt lots s) default).size := by
        rcases Nat.eq_zero_or_pos (firstDt lots s) with hz | hpos
        · have h0 : ((lots.take (0 + 1)).map (·.size)).sum
              = (lots.getD 0 default).totalSize := h3' 0 (by omega)
          have h0' : ((lots.take 1).map (·.size)).sum
              = (lots.getD 0 default).size := by
            rw [take_succ_getD lots 0 (by omega)]
            simp
          rw [hz] at *
          rw [← h0, h0']
          linarith
        · have hprevlt : firstDt lots s - 1 < firstDt lots s := by omega
          have hnegp := hnotcov (firstDt lots s - 1) hprevlt
          have htsp : ((lots.take (firstDt lots s - 1 + 1)).map (·.size)).sum
              = (lots.getD (firstDt lots s - 1) default).totalSize :=
            h3' _ (by omega)
          have hieq : firstDt lots s - 1 + 1 = firstDt lots s := by omega
          rw [hieq] at htsp
          rw [← hts, hsplit2, htsp] at *
          linarith
      rw [hgd, clampLot_of_nonneg s _ hpastb hge, updateLot_of_eq, updateLotBound]
      exact ⟨hbound, hge⟩
    · rw [hgd, updateLot_of_gt hifd, clampLot]
      split
      · exact ⟨le_refl _, hszi⟩
      · exact ⟨le_refl _, hszi⟩
  · have hl1 : lots.length ≤ i := Nat.le_of_not_lt hi
    have hl2 : (processSellLots lots s).length ≤ i := by
      rw [length_processSellLots]; exact hl1
    rw [getD_of_le _ _ hl1, getD_of_le _ _ hl2]
    exact ⟨le_refl _, le_refl _⟩

theorem lotsAfter_take_succ (lots : List Lot) (sells : List Tx) (k : Nat)
    (hk : k < sells.length) :
    lotsAfter lots (sells.take (k + 1)) =
      processSellLots (lotsAfter lots (sells.take k)) (sells.getD k default) := by
  rw [take_succ_getD sells k hk, lotsAfter, lotsAfter, List.foldl_append]
  rfl

theorem runOK_step :
    ∀ (sells : List Tx) (lots : List Lot), runOKb lots sells = true →
      ∀ k, k < sells.length →
        stepOKb (lotsAfter lots (sells.take k)) (sells.getD k default) = true := by
  intro sells
  induction sells with
  | nil => intro lots h k hk; simp at hk
  | cons s ss ih =>
    intro lots h k hk
    rw [runOKb, Bool.and_eq_true] at h
    cases k with
    | zero => simpa [lotsAfter] using h.1
    | succ k =>
      have hk' : k < ss.length := by simpa using Nat.lt_of_succ_lt_succ hk
      have := ih (processSellLots lots s) h.2 k hk'
      simpa [lotsAfter, List.take_succ_cons, List.foldl_cons,
        List.getD_cons_succ] using this

theorem run_nonneg (lots : List Lot) (sells : List Tx)
    (h : runOKb lots sells = true) (h0 : ∀ l ∈ lots, 0 ≤ l.size) :
    ∀ k i, (0:ℚ) ≤ ((lotsAfter lots (sells.take k)).getD i default).size := by
  intro k
  induction k with
  | zero =>
    intro i
    simp only [List.take_zero, lotsAfter, List.foldl_nil]
    by_cases hi : i < lots.length
    · rw [List.getD_eq_getElem _ _ hi]
      exact h0 _ (List.getElem_mem hi)
    · rw [getD_of_le _ _ (Nat.le_of_not_lt hi)]
      exact le_refl 0
  | succ k ihk =>
    intro i
    by_cases hk : k < sells.length
    · rw [lotsAfter_take_succ _ _ _ hk]
      exact (step_size_mono _ _ (runOK_step sells lots h k hk) i).2
    · have e2 : sells.take k = sells := List.take_of_length_le (Nat.le_of_not_lt hk)
      have e1 : sells.take (k + 1) = sells := List.take_of_length_le (by omega)
      rw [e1]
      rw [e2] at ihk
      exact ihk i

theorem dedupByKey_sublist :
    ∀ (seen : List (Nat × String × String × Nat)) (l : List Tx),
      List.Sublist (dedupByKey seen l) l := by
  intro seen l
  induction l generalizing seen with
  | nil => exact List.Sublist.refl []
  | cons t ts ih =>
    rw [dedupByKey]
    split
    · exact (ih seen).cons t
    · exact (ih (txKey t :: seen)).cons₂ t

theorem dedupByKey_keys :
    ∀ (seen : List (Nat × String × String × Nat)) (l : List Tx),
      ((dedupByKey seen l).map txKey).Nodup ∧
        ∀ k ∈ (dedupByKey seen l).map txKey, k ∉ seen := by
  intro seen l
  induction l generalizing seen with
  | nil => exact ⟨List.nodup_nil, by intro k hk; simp [dedupByKey] at hk⟩
  | cons t ts ih =>
    rw [dedupByKey]
    split
    · exact ih seen
    · rename_i hns
      obtain ⟨ihn, ihd⟩ := ih (txKey t :: seen)
      rw [List.map_cons]
      constructor
      · rw [List.nodup_cons]
        exact ⟨fun hc => ihd _ hc (List.mem_cons_self _ _), ihn⟩
      · intro k hk
        rcases List.mem_cons.mp hk with rfl | hk
        · exact hns
        · exact fun hc => ihd k hk (List.mem_cons_of_mem _ hc)

theorem dedupByKey_cover :
    ∀ (seen : List (Nat × String × String × Nat)) (l : List Tx) (t : Tx),
      t ∈ l → txKey t ∈ seen ∨
        ∃ u ∈ dedupByKey seen l, txKey u = txKey t := by
  intro seen l
  induction l generalizing seen with
  | nil => intro t ht; simp at ht
  | cons a ts ih =>
    intro t ht
    rw [dedupByKey]
    rcases List.mem_cons.mp ht with rfl | ht
    · split
      · rename_i hin
        exact Or.inl hin
      · exact Or.inr ⟨t, List.mem_cons_self _ _, rfl⟩
    · split
      · exact (ih seen t ht).imp id
          (fun ⟨u, hu, he⟩ => ⟨u, hu, he⟩)
      · rcases ih (txKey a :: seen) t ht with hin | ⟨u, hu, he⟩
        · rcases List.mem_cons.mp hin with heq | hin
          · exact Or.inr ⟨a, List.mem_cons_self _ _, heq.symm⟩
          · exact Or.inl hin
        · exact Or.inr ⟨u, List.mem_cons_of_mem _ hu, he⟩

theorem dedupByKey_all_seen :
    ∀ (seen : List (Nat × String × String × Nat)) (M : List Tx),
      (∀ m ∈ M, txKey m ∈ seen) → dedupByKey seen M = [] := by
  intro seen M
  induction M generalizing seen with
  | nil => intro _; rfl
  | cons m ms ih =>
    intro h
    rw [dedupByKey, if_pos (h m (List.mem_cons_self _ _))]
    exact ih seen (fun x hx => h x (List.mem_cons_of_mem _ hx))

theorem dedupByKey_append_seen :
    ∀ (T : List Tx) (seen : List (Nat × String × String × Nat)) (rest : List Tx),
      (∀ j ∈ T, txKey j ∈ seen) →
      dedupByKey seen (T ++ rest) = dedupByKey seen rest := by
  intro T
  induction T with
  | nil => intro seen rest _; rfl
  | cons j js ih =>
    intro seen rest h
    rw [List.cons_append, dedupByKey, if_pos (h j (List.mem_cons_self _ _))]
    exact ih seen rest (fun x hx => h x (List.mem_cons_of_mem _ hx))

theorem mem_foldr_orderedInsert :
    ∀ (L M : List Tx) (n : Tx),
      n ∈ L.foldr (fun x acc => List.orderedInsert txLE x acc) M →
        n ∈ L ∨ n ∈ M := by
  intro L
  induction L with
  | nil => intro M n hn; exact Or.inr hn
  | cons x L ih =>
    intro M n hn
    rw [List.foldr_cons] at hn
    rcases (List.mem_orderedInsert txLE).mp hn with rfl | hn
    · exact Or.inl (List.mem_cons_self _ _)
    · rcases ih M n hn with h | h
      · exact Or.inl (List.mem_cons_of_mem _ h)
      · exact Or.inr h

theorem insertionSort_append_foldr :
    ∀ L B : List Tx,
      (L ++ B).insertionSort txLE =
        L.foldr (fun x acc => List.orderedInsert txLE x acc)
          (B.insertionSort txLE) := by
  intro L B
  induction L with
  | nil => rfl
  | cons x L ih =>
    rw [List.cons_append, List.insertionSort, ih]
    rfl

theorem dedup_foldr_eq :
    ∀ (L : List Tx) (seen : List (Nat × String × String × Nat)) (M : List Tx),
      L.Pairwise txLE →
      (L.map txKey).Nodup →
      (∀ k ∈ L.map txKey, k ∉ seen) →
      (∀ m ∈ M, txKey m ∈ seen ∨ m ∈ L) →
      dedupByKey seen
          (L.foldr (fun x acc => List.orderedInsert txLE x acc) M) = L := by
  intro L
  induction L with
  | nil =>
    intro seen M _ _ _ hM
    apply dedupByKey_all_seen
    intro m hm
    rcases hM m hm with h | h
    · exact h
    · simp at h
  | cons x L ih =>
    intro seen M hsort hnd hdisj hM
    rw [List.foldr_cons]
    obtain ⟨hxle, hsort'⟩ := List.pairwise_cons.mp hsort
    have hknd := hnd
    rw [List.map_cons, List.nodup_cons] at hknd
    obtain ⟨hxk, hnd'⟩ := hknd
    have hxseen : txKey x ∉ seen :=
      hdisj (txKey x) (by rw [List.map_cons]; exact List.mem_cons_self _ _)
    set N := L.foldr (fun x acc => List.orderedInsert txLE x acc) M with hN
    have hNmem : ∀ n ∈ N, n ∈ L ∨ n ∈ M := fun n hn =>
      mem_foldr_orderedInsert L M n hn
    have hTW : ∀ j ∈ N.takeWhile (fun b => !(decide (txLE x b))),
        txKey j ∈ seen := by
      intro j hj
      have hjlt : ¬ txLE x j := by
        have := List.mem_takeWhile_imp hj
        simpa using this
      have hjN : j ∈ N := (List.takeWhile_sublist _).subset hj
      rcases hNmem j hjN with hjL | hjM
      · exact absurd (hxle j hjL) hjlt
      · rcases hM j hjM with h | h
        · exact h
        · rcases List.mem_cons.mp h with rfl | hjL
          · exact absurd (le_refl j.datetime) hjlt
          · exact absurd (hxle j hjL) hjlt
    have hsplit : List.orderedInsert txLE x N =
        N.takeWhile (fun b => !(decide (txLE x b))) ++
          x :: N.dropWhile (fun b => !(decide (txLE x b))) := by
      have := List.orderedInsert_eq_take_drop txLE x N
      simpa using this
    rw [hsplit, dedupByKey_append_seen _ _ _ hTW, dedupByKey,
      if_neg hxseen]
    congr 1
    have hND : dedupByKey (txKey x :: seen) N = L := by
      apply ih (txKey x :: seen) M hsort' hnd'
      · intro k hk
        intro hc
        rcases List.mem_cons.mp hc with rfl | hc
        · exact hxk hk
        · exact hdisj k (by rw [List.map_cons]; exact List.mem_cons_of_mem _ hk) hc
      · intro m hm
        rcases hM m hm with h | h
        · exact Or.inl (List.mem_cons_of_mem _ h)
        · rcases List.mem_cons.mp h with rfl | hmL
          · exact Or.inl (List.mem_cons_self _ _)
          · exact Or.inr hmL
    have hNsplit : N = N.takeWhile (fun b => !(decide (txLE x b))) ++
        N.dropWhile (fun b => !(decide (txLE x b))) :=
      (List.takeWhile_append_dropWhile _ _).symm
    rw [hNsplit, dedupByKey_append_seen _ _ _
      (fun j hj => List.mem_cons_of_mem _ (hTW j hj))] at hND
    exact hND

/-! ## The claims -/

section
attribute [local semireducible] Rat.add Rat.mul Rat.inv Rat.sub

/-- C2: on the spec's FIFO scenario the engine emits exactly one record
with funds_paid -1240, funds_received 1500, profit 260; on the BTC
end-to-end scenario exactly one record with funds_paid -20000,
funds_received 25000, profit 5000. -/
theorem claim_C2_fifo_scenarios :
    getRealizedProfits fifoLedger =
      [{ datetime := 300, symbolBuy := "AAA", fundsPaid := -1240,
         fundsReceived := 1500, profitLoss := 260, toBeTaxed := 260 }] ∧
    getRealizedProfits btcLedger =
      [{ datetime := 300, symbolBuy := "BTC", fundsPaid := -20000,
         fundsReceived := 25000, profitLoss := 5000, toBeTaxed := 5000 }] := by
  constructor <;> rfl

/-- C3: on the oversold ledger (sell size 2 against total buy size 1) no
lot satisfies the boundary condition, the `idxmax` boundary search falls
back to the first lot, the engine attributes that lot's full cost basis
(-1000) as `funds_paid`, and the conservation assertion of line 144 is
violated (the Python code dies with a plain `AssertionError`); no
`DataInconsistencyError` is defined or raised anywhere in the code. -/
theorem claim_C3_oversold_behavior :
    oversoldLots.findIdx (coveredBy oversoldSell) = oversoldLots.length ∧
    firstDt oversoldLots oversoldSell = 0 ∧
    sellAssertHolds oversoldLots oversoldSell = false ∧
    (processSellRec "AAA" oversoldLots oversoldSell).fundsPaid = -1000 := by
  refine ⟨rfl, rfl, rfl, rfl⟩

/-- C1: the conservation assertion of portfolio.py line 144.  For any
lot state and sell event that are well-formed (the boundary search finds
a covering lot, every lot up to the boundary lies in the sell's past,
`Total Size` at the boundary is the prefix sum of the sizes up to it,
lots after the boundary carry no stale profits, and the sell size is
nonzero), the emitted record satisfies
`funds_paid + funds_received = sum(Profits)` exactly over `ℚ`. -/
theorem claim_C1_conservation (sym : String) (lots : List Lot) (s : Tx)
    (hcov : lots.findIdx (coveredBy s) < lots.length)
    (hpast : ∀ l ∈ lots.take (firstDt lots s + 1), l.datetime ≤ s.datetime)
    (hts : ((lots.take (firstDt lots s + 1)).map (·.size)).sum
            = (lots.getD (firstDt lots s) default).totalSize)
    (hstale : ∀ l ∈ lots.drop (firstDt lots s + 1), l.profits = 0)
    (hS : s.size ≠ 0) :
    (processSellRec sym lots s).fundsPaid +
        (processSellRec sym lots s).fundsReceived
      = ((processSellLots lots s).map (·.profits)).sum := by
  have hfd : firstDt lots s = lots.findIdx (coveredBy s) := by
    unfold firstDt
    simp [hcov]
  have hlt : firstDt lots s < lots.length := hfd ▸ hcov
  have htks : lots.take (firstDt lots s + 1) =
      lots.take (firstDt lots s) ++ [lots.getD (firstDt lots s) default] := by
    rw [List.take_succ]
    congr 1
    rw [List.getD_eq_getElem _ _ hlt, List.getElem?_eq_getElem hlt]
    rfl
  have hsplit : lots = lots.take (firstDt lots s) ++
      lots.getD (firstDt lots s) default :: lots.drop (firstDt lots s + 1) := by
    rw [List.getD_eq_getElem _ _ hlt]
    conv_lhs => rw [← List.take_append_drop (firstDt lots s) lots]
    rw [← List.getElem_cons_drop lots (firstDt lots s) hlt]
  have hA : ∀ l ∈ lots.take (firstDt lots s),
      clampLot s l = { l with totalSize := 0 } := by
    intro l hl
    have hsub : l ∈ lots.take (firstDt lots s + 1) := by
      rw [htks]
      exact List.mem_append_left _ hl
    have hpastl : l.datetime ≤ s.datetime := hpast l hsub
    have hcovl : coveredBy s l = false := by
      apply findIdx_take_not (coveredBy s) lots l
      rwa [← hfd]
    have hneg : l.totalSize + s.size < 0 := by
      simp only [coveredBy, decide_eq_false_iff_not, not_le] at hcovl
      exact hcovl
    exact clampLot_of_zero s l hpastl hneg
  have hbpast : (lots.getD (firstDt lots s) default).datetime ≤ s.datetime := by
    apply hpast
    rw [htks]
    exact List.mem_append_right _ (List.mem_singleton.mpr rfl)
  have hbcov : (0:ℚ) ≤ (lots.getD (firstDt lots s) default).totalSize + s.size := by
    have h1 := findIdx_getD_true (coveredBy s) lots hcov
    rw [← hfd] at h1
    simpa [coveredBy] using h1
  have hb : clampLot s (lots.getD (firstDt lots s) default) =
      { lots.getD (firstDt lots s) default with
        totalSize := (lots.getD (firstDt lots s) default).totalSize + s.size } :=
    clampLot_of_nonneg s _ hbpast hbcov
  have happ : applyPastTS lots s =
      ((lots.take (firstDt lots s)).map fun l => { l with totalSize := 0 }) ++
        ({ lots.getD (firstDt lots s) default with
            totalSize := (lots.getD (firstDt lots s) default).totalSize + s.size }) ::
          (lots.drop (firstDt lots s + 1)).map (clampLot s) := by
    rw [applyPastTS]
    conv_lhs => rw [hsplit]
    rw [List.map_append, List.map_cons, List.map_congr_left hA, hb]
  have hA'len :
      (((lots.take (firstDt lots s)).map fun l => { l with totalSize := (0:ℚ) })).length
        = firstDt lots s := by
    rw [List.length_map, List.length_take]
    omega
  have hfinal : processSellLots lots s =
      (((lots.take (firstDt lots s)).map fun l => { l with totalSize := 0 }).map
          (updateLotBefore s)) ++
        updateLotBound s (sellFundsShare lots s)
            { lots.getD (firstDt lots s) default with
              totalSize := (lots.getD (firstDt lots s) default).totalSize + s.size } ::
          (lots.drop (firstDt lots s + 1)).map (clampLot s) := by
    rw [processSellLots, happ, updLots_append]
    rw [updLots_of_le _ _ _ _ _ (by rw [hA'len]; omega)]
    rw [hA'len, Nat.zero_add]
    show _ ++ (updateLot s (firstDt lots s) (sellFundsShare lots s) (firstDt lots s) _ ::
      updLots s (firstDt lots s) (sellFundsShare lots s) (firstDt lots s + 1) _) = _
    rw [updateLot_of_eq, updLots_of_gt _ _ _ _ _ (Nat.lt_succ_self _)]
  have hCzero :
      (((lots.drop (firstDt lots s + 1)).map (clampLot s)).map (·.profits)).sum = 0 := by
    rw [List.map_map]
    apply List.sum_eq_zero
    intro x hx
    obtain ⟨l, hl, rfl⟩ := List.mem_map.mp hx
    simp only [Function.comp_apply, clampLot_profits]
    exact hstale l hl
  have hpaid : sellFundsPaid lots s = sellFundsShare lots s +
      ((lots.take (firstDt lots s)).map (·.funds)).sum := by
    rw [sellFundsPaid]
    congr 1
    rw [happ, List.take_left' hA'len, List.map_map]
    exact congrArg List.sum (List.map_congr_left fun l _ => rfl)
  have hts' : ((lots.take (firstDt lots s)).map (·.size)).sum +
      (lots.getD (firstDt lots s) default).size
        = (lots.getD (firstDt lots s) default).totalSize := by
    rw [htks, List.map_append, List.sum_append] at hts
    simpa using hts
  have hrecpaid : (processSellRec sym lots s).fundsPaid = sellFundsPaid lots s := rfl
  have hrecrecv : (processSellRec sym lots s).fundsReceived = s.funds := rfl
  rw [hrecpaid, hrecrecv, hpaid, hfinal]
  simp only [List.map_append, List.map_cons, List.sum_append, List.sum_cons]
  rw [sum_profits_zeroTS, hCzero]
  have hbprofit : (updateLotBound s (sellFundsShare lots s)
      { lots.getD (firstDt lots s) default with
        totalSize := (lots.getD (firstDt lots s) default).totalSize + s.size }).profits
      = ((lots.getD (firstDt lots s) default).size -
          ((lots.getD (firstDt lots s) default).totalSize + s.size)) *
            (-s.funds / s.size) + sellFundsShare lots s := rfl
  rw [hbprofit, ← hts']
  have hfunds : s.size * (-s.funds / s.size) = -s.funds := by
    field_simp
    ring
  linear_combination hfunds

/-- Witness for C1 at the FIFO scenario's lot state and sell. -/
theorem claim_C1_conservation_witness :
    (processSellRec "AAA" fifoLots fifoSell).fundsPaid +
        (processSellRec "AAA" fifoLots fifoSell).fundsReceived
      = ((processSellLots fifoLots fifoSell).map (·.profits)).sum :=
  claim_C1_conservation "AAA" fifoLots fifoSell (by decide) (by decide)
    (by decide) (by decide) (by decide)

/-- C4: every lot touched by a sell (position up to the boundary) gets
`Held days` computed as the floored whole-day difference between the
sell timestamp and the lot's acquisition timestamp, is flagged
`To be taxed` iff that is at most 365, and the emitted record's taxable
amount is the sum of `Profits` over the rows where the flag holds or the
profit is negative. -/
theorem claim_C4_holding_period_tax (sym : String) (lots : List Lot) (s : Tx)
    (i : Nat) (hi : i < lots.length) (hif : i ≤ firstDt lots s) :
    ((processSellLots lots s).getD i default).heldDays
        = heldDaysFn ((lots.getD i default).datetime) s.datetime ∧
    (((processSellLots lots s).getD i default).toBeTaxed = true ↔
        ((processSellLots lots s).getD i default).heldDays ≤ 365) ∧
    (processSellRec sym lots s).toBeTaxed =
      (((processSellLots lots s).filter fun l =>
          l.toBeTaxed || decide (l.profits < 0)).map (·.profits)).sum := by
  have hlen : i < (applyPastTS lots s).length := by
    rw [applyPastTS, List.length_map]
    exact hi
  have h1 : (processSellLots lots s).getD i default =
      updateLot s (firstDt lots s) (sellFundsShare lots s) (0 + i)
        ((applyPastTS lots s).getD i default) := by
    rw [processSellLots]
    exact updLots_getD _ _ _ _ 0 i hlen
  have h2 : (applyPastTS lots s).getD i default = clampLot s (lots.getD i default) := by
    rw [applyPastTS, List.getD_eq_getElem _ _ (by rwa [List.length_map]),
      List.getElem_map, List.getD_eq_getElem _ _ hi]
  have hdt : (clampLot s (lots.getD i default)).datetime
      = (lots.getD i default).datetime := clampLot_datetime s _
  refine ⟨?_, ?_, rfl⟩
  · rw [h1, h2, Nat.zero_add]
    rcases Nat.lt_or_ge i (firstDt lots s) with hlt | hge
    · rw [updateLot_of_lt hlt, updateLotBefore, hdt]
    · have heq : i = firstDt lots s := Nat.le_antisymm hif hge
      subst heq
      rw [updateLot_of_eq, updateLotBound, hdt]
  · rw [h1, h2, Nat.zero_add]
    rcases Nat.lt_or_ge i (firstDt lots s) with hlt | hge
    · rw [updateLot_of_lt hlt, updateLotBefore]
      simp
    · have heq : i = firstDt lots s := Nat.le_antisymm hif hge
      subst heq
      rw [updateLot_of_eq, updateLotBound]
      simp

/-- Witness for C4: a lot held 151 days is flagged taxed, the same lot
held 517 days is exempt. -/
theorem claim_C4_witness :
    (((processSellLots taxLots tax151Sell).getD 0 default).heldDays = 151 ∧
      ((processSellLots taxLots tax151Sell).getD 0 default).toBeTaxed = true ∧
      ((processSellLots taxLots tax517Sell).getD 0 default).heldDays = 517 ∧
      ((processSellLots taxLots tax517Sell).getD 0 default).toBeTaxed = false) ∧
    (((processSellLots taxLots tax151Sell).getD 0 default).heldDays
        = heldDaysFn ((taxLots.getD 0 default).datetime) tax151Sell.datetime ∧
      (((processSellLots taxLots tax151Sell).getD 0 default).toBeTaxed = true ↔
        ((processSellLots taxLots tax151Sell).getD 0 default).heldDays ≤ 365) ∧
      (processSellRec "AAA" taxLots tax151Sell).toBeTaxed =
        (((processSellLots taxLots tax151Sell).filter fun l =>
            l.toBeTaxed || decide (l.profits < 0)).map (·.profits)).sum) :=
  ⟨by decide,
    claim_C4_holding_period_tax "AAA" taxLots tax151Sell 0 (by decide) (by decide)⟩

/-- C7: an asset with buy events and no sell events contributes no
record to the realized-profit table, and the table equals what the other
assets alone produce. -/
theorem claim_C7_no_sell_asset (sym : String) (txs : List Tx)
    (hbuy : ∃ t ∈ txs, t.symbolBuy = sym ∧ t.side = Side.buy)
    (hnosell : ∀ t ∈ txs, t.symbolBuy = sym → t.side ≠ Side.sell) :
    (getRealizedProfits txs).filter (fun r => r.symbolBuy == sym) = [] ∧
      getRealizedProfits txs =
        ((symbolsOf txs).filter fun x => !(x == sym)).flatMap
          (fun sym' => processAsset sym' txs) := by
  have hsells : sellsFor sym txs = [] := by
    rw [sellsFor, List.filter_eq_nil_iff]
    intro r hr
    rw [rowsFor] at hr
    have hr' := List.mem_of_mem_filter hr
    obtain ⟨t, ht, hside, _⟩ := addTotalSize_mem 0 _ r hr'
    have ht2 := (List.mem_insertionSort eventLE).mp ht
    have ht3 := List.mem_filter.mp ht2
    have hsymt : t.symbolBuy = sym := by simpa using ht3.2
    have : t.side ≠ Side.sell := hnosell t ht3.1 hsymt
    simp only [beq_iff_eq, hside]
    exact fun hc => this hc
  have hempty : processAsset sym txs = [] := by
    rw [processAsset]
    have : ((sellsFor sym txs).map (rowToTx sym)).isEmpty = true := by
      rw [hsells]; rfl
    simp [this]
  constructor
  · rw [List.filter_eq_nil_iff]
    intro r hr
    rw [getRealizedProfits] at hr
    obtain ⟨sym', hsym', hrm⟩ := List.mem_flatMap.mp hr
    have := processAsset_symbolBuy sym' txs r hrm
    intro hc
    rw [beq_iff_eq] at hc
    rw [hc] at this
    rw [← this] at hrm
    rw [hempty] at hrm
    simp at hrm
  · rw [getRealizedProfits]
    apply flatMap_filter_of_nil
    intro x hx hqx
    have : x = sym := by simpa using hqx
    rw [this, hempty]

/-- Witness for C7 on a ledger where "NOP" has only a buy. -/
theorem claim_C7_witness :
    (getRealizedProfits buyOnlyLedger).filter (fun r => r.symbolBuy == "NOP") = [] ∧
      getRealizedProfits buyOnlyLedger =
        ((symbolsOf buyOnlyLedger).filter fun x => !(x == "NOP")).flatMap
          (fun sym' => processAsset sym' buyOnlyLedger) :=
  claim_C7_no_sell_asset "NOP" buyOnlyLedger
    ⟨mkTx 100 "NOP" .buy 5 (-50), by decide, by decide, by decide⟩
    (by decide)

/-- C8: the engine's event ordering sorts primarily by datetime and
secondarily by side with buys before sells, so no sell precedes a buy of
the same timestamp, and the cumulative `Total Size` at any position is
the sum of the sizes of all rows up to it (hence a same-timestamp buy is
counted in the `Total Size` available to that sell). -/
theorem claim_C8_sort_order (txs : List Tx) :
    (txs.insertionSort eventLE).Pairwise eventLE ∧
    ((txs.insertionSort eventLE).Pairwise fun a b =>
      ¬(a.side = Side.sell ∧ b.side = Side.buy ∧ a.datetime = b.datetime)) ∧
    (∀ j, j < txs.length →
      ((addTotalSize 0 (txs.insertionSort eventLE)).getD j default).totalSize
        = (((txs.insertionSort eventLE).take (j + 1)).map (·.size)).sum) := by
  have hs : (txs.insertionSort eventLE).Pairwise eventLE :=
    List.sorted_insertionSort eventLE txs
  refine ⟨hs, ?_, ?_⟩
  · apply hs.imp
    intro a b hab hc
    obtain ⟨hsell, hbuy, hdt⟩ := hc
    rcases hab with hlt | ⟨heq, hkey⟩
    · rw [hdt] at hlt
      exact lt_irrefl _ hlt
    · rw [hsell, hbuy] at hkey
      simp [sideKey] at hkey
  · intro j hj
    rw [addTotalSize_getD _ 0 j (by simpa using hj), zero_add]

/-- Witness for C8: the same-timestamp sell-then-buy ledger is reordered
buy-first and its cumulative size at the sell includes the buy. -/
theorem claim_C8_witness :
    (c8Ledger.insertionSort eventLE).map (·.side) = [Side.buy, Side.sell] ∧
    ((addTotalSize 0 (c8Ledger.insertionSort eventLE)).getD 1 default).totalSize
      = (((c8Ledger.insertionSort eventLE).take 2).map (·.size)).sum :=
  ⟨by decide, (claim_C8_sort_order c8Ledger).2.2 1 (by decide)⟩


/-- C5: on a ledger whose rows all have counter asset USD the currency
unifier is the identity (for the ledger kept sorted by datetime, as the
handler maintains it), and hence running it twice equals running it
once. -/
theorem claim_C5_unify_noop (hist : String → Nat → ℚ × ℚ) (txs : List Tx)
    (husd : ∀ t ∈ txs, t.symbolSell = "USD")
    (hsorted : txs.Pairwise txLE) :
    getTransactionsBasedOnUsd hist txs = txs ∧
    getTransactionsBasedOnUsd hist (getTransactionsBasedOnUsd hist txs)
      = getTransactionsBasedOnUsd hist txs := by
  have h1 : getTransactionsBasedOnUsd hist txs = txs := by
    rw [getTransactionsBasedOnUsd]
    by_cases hc : ((txs.all fun t => t.symbolSell == "USD") &&
        (txs.all fun t => t.feeCurrency == "USD")) = true
    · rw [if_pos hc]
    · rw [if_neg hc]
      have hfil : (txs.filter fun t => !(t.symbolSell == "USD")) = [] := by
        rw [List.filter_eq_nil_iff]
        intro t ht
        simp [husd t ht]
      have hfil2 : (txs.filter fun t => t.symbolSell == "USD") = txs := by
        rw [List.filter_eq_self]
        intro t ht
        simp [husd t ht]
      rw [hfil, hfil2]
      simp only [List.map_nil, List.nil_append]
      exact List.Sorted.insertionSort_eq hsorted
  exact ⟨h1, by rw [h1, h1]⟩

/-- C6: every swap row is split into a synthetic counter-leg (pair
`<counter>-USD`, side flipped, size the old funds, funds
`-(mid * funds)`, fee rescaled by the fee currency's mid) and a
rewritten original leg (pair `<base>-USD`, funds the exact negative of
the synthetic leg's funds), both present in the unifier's output. -/
theorem claim_C6_swap_split (hist : String → Nat → ℚ × ℚ) (txs : List Tx)
    (t : Tx) (ht : t ∈ txs) (hswap : t.symbolSell ≠ "USD") :
    swapAddRow hist t ∈ getTransactionsBasedOnUsd hist txs ∧
    swapOrgRow hist t ∈ getTransactionsBasedOnUsd hist txs ∧
    (swapAddRow hist t).funds = -(mid hist t.symbolSell (txDay t) * t.funds) ∧
    (swapAddRow hist t).fee = mid hist t.feeCurrency (txDay t) * t.fee ∧
    (swapAddRow hist t).symbolBuy = t.symbolSell ∧
    (swapAddRow hist t).symbolSell = "USD" ∧
    (swapAddRow hist t).side = flipSide t.side ∧
    (swapAddRow hist t).size = t.funds ∧
    (swapOrgRow hist t).funds = -(swapAddRow hist t).funds ∧
    (swapOrgRow hist t).symbolBuy = t.symbolBuy ∧
    (swapOrgRow hist t).symbolSell = "USD" := by
  have hcond : ((txs.all fun t => t.symbolSell == "USD") &&
      (txs.all fun t => t.feeCurrency == "USD")) = false := by
    have : (txs.all fun t => t.symbolSell == "USD") = false := by
      rw [List.all_eq_false]
      exact ⟨t, ht, by simpa using hswap⟩
    rw [this, Bool.false_and]
  have hmem : t ∈ txs.filter fun t => !(t.symbolSell == "USD") := by
    rw [List.mem_filter]
    exact ⟨ht, by simpa using hswap⟩
  have hout : getTransactionsBasedOnUsd hist txs =
      (((txs.filter fun t => !(t.symbolSell == "USD")).map (swapOrgRow hist)) ++
        ((txs.filter fun t => !(t.symbolSell == "USD")).map (swapAddRow hist)) ++
        (txs.filter fun t => t.symbolSell == "USD")).insertionSort txLE := by
    rw [getTransactionsBasedOnUsd, if_neg (by rw [hcond]; exact Bool.false_ne_true)]
  refine ⟨?_, ?_, by simp [swapAddRow], rfl, rfl, rfl, rfl, rfl, rfl, rfl, rfl⟩
  · rw [hout, List.mem_insertionSort]
    exact List.mem_append_left _
      (List.mem_append_right _ (List.mem_map_of_mem _ hmem))
  · rw [hout, List.mem_insertionSort]
    exact List.mem_append_left _
      (List.mem_append_left _ (List.mem_map_of_mem _ hmem))

/-- Witness for C5 on the all-USD FIFO ledger. -/
theorem claim_C5_witness :
    getTransactionsBasedOnUsd c6Hist fifoLedger = fifoLedger ∧
    getTransactionsBasedOnUsd c6Hist (getTransactionsBasedOnUsd c6Hist fifoLedger)
      = getTransactionsBasedOnUsd c6Hist fifoLedger :=
  claim_C5_unify_noop c6Hist fifoLedger (by decide) (by decide)

/-- Witness for C6 on the one-swap ledger with constant mid price 2. -/
theorem claim_C6_witness :
    swapAddRow c6Hist c6Tx ∈ getTransactionsBasedOnUsd c6Hist c6Ledger ∧
    swapOrgRow c6Hist c6Tx ∈ getTransactionsBasedOnUsd c6Hist c6Ledger ∧
    (swapAddRow c6Hist c6Tx).funds
      = -(mid c6Hist c6Tx.symbolSell (txDay c6Tx) * c6Tx.funds) ∧
    (swapAddRow c6Hist c6Tx).fee
      = mid c6Hist c6Tx.feeCurrency (txDay c6Tx) * c6Tx.fee ∧
    (swapAddRow c6Hist c6Tx).symbolBuy = c6Tx.symbolSell ∧
    (swapAddRow c6Hist c6Tx).symbolSell = "USD" ∧
    (swapAddRow c6Hist c6Tx).side = flipSide c6Tx.side ∧
    (swapAddRow c6Hist c6Tx).size = c6Tx.funds ∧
    (swapOrgRow c6Hist c6Tx).funds = -(swapAddRow c6Hist c6Tx).funds ∧
    (swapOrgRow c6Hist c6Tx).symbolBuy = c6Tx.symbolBuy ∧
    (swapOrgRow c6Hist c6Tx).symbolSell = "USD" :=
  claim_C6_swap_split c6Hist c6Ledger c6Tx (by decide) (by decide)

/-- C9: across a well-formed sequence of sells processed in order, every
lot's remaining size is non-increasing step by step, never negative, and
never exceeds its original size; the boundary lot's cost basis is
consumed proportionally: `funds_share = size_ratio * remaining funds`
and the boundary lot's remaining funds drop by exactly that share. -/
theorem claim_C9_lot_state (lots : List Lot) (sells : List Tx)
    (h : runOKb lots sells = true) (h0 : ∀ l ∈ lots, 0 ≤ l.size) :
    (∀ k i, ((lotsAfter lots (sells.take (k + 1))).getD i default).size
        ≤ ((lotsAfter lots (sells.take k)).getD i default).size) ∧
    (∀ k i, (0:ℚ) ≤ ((lotsAfter lots (sells.take k)).getD i default).size) ∧
    (∀ k i, ((lotsAfter lots (sells.take k)).getD i default).size
        ≤ (lots.getD i default).size) ∧
    (∀ k, k < sells.length →
      sellFundsShare (lotsAfter lots (sells.take k)) (sells.getD k default)
        = sellSizeRatio (lotsAfter lots (sells.take k)) (sells.getD k default)
          * ((applyPastTS (lotsAfter lots (sells.take k))
                (sells.getD k default)).getD
              (firstDt (lotsAfter lots (sells.take k)) (sells.getD k default))
              default).funds ∧
      ((lotsAfter lots (sells.take (k + 1))).getD
          (firstDt (lotsAfter lots (sells.take k)) (sells.getD k default))
          default).funds
        = ((applyPastTS (lotsAfter lots (sells.take k))
              (sells.getD k default)).getD
            (firstDt (lotsAfter lots (sells.take k)) (sells.getD k default))
            default).funds
          - sellFundsShare (lotsAfter lots (sells.take k))
              (sells.getD k default)) := by
  have hmono : ∀ k i, ((lotsAfter lots (sells.take (k + 1))).getD i default).size
      ≤ ((lotsAfter lots (sells.take k)).getD i default).size := by
    intro k i
    by_cases hk : k < sells.length
    · rw [lotsAfter_take_succ _ _ _ hk]
      exact (step_size_mono _ _ (runOK_step sells lots h k hk) i).1
    · have e2 : sells.take k = sells := List.take_of_length_le (Nat.le_of_not_lt hk)
      have e1 : sells.take (k + 1) = sells := List.take_of_length_le (by omega)
      rw [e1, e2]
  refine ⟨hmono, run_nonneg lots sells h h0, ?_, ?_⟩
  · intro k
    induction k with
    | zero =>
      intro i
      simp [lotsAfter]
    | succ k ihk =>
      intro i
      exact le_trans (hmono k i) (ihk i)
  · intro k hk
    refine ⟨rfl, ?_⟩
    have hstep := runOK_step sells lots h k hk
    obtain ⟨h1, -, -, -, -⟩ := stepOKb_unpack _ _ hstep
    have hfd : firstDt (lotsAfter lots (sells.take k)) (sells.getD k default)
        = (lotsAfter lots (sells.take k)).findIdx
            (coveredBy (sells.getD k default)) := by
      unfold firstDt
      exact if_pos h1
    have hlt : firstDt (lotsAfter lots (sells.take k)) (sells.getD k default)
        < (lotsAfter lots (sells.take k)).length := by rw [hfd]; exact h1
    rw [lotsAfter_take_succ _ _ _ hk,
      processSellLots_getD _ _ _ hlt, updateLot_of_eq,
      applyPastTS_getD _ _ _ hlt]
    rfl

/-- Witness for C9 on the FIFO scenario's lot state and its one sell. -/
theorem claim_C9_witness :
    ((lotsAfter fifoLots ([fifoSell].take 1)).getD 1 default).size
        ≤ ((lotsAfter fifoLots ([fifoSell].take 0)).getD 1 default).size ∧
    (0:ℚ) ≤ ((lotsAfter fifoLots ([fifoSell].take 1)).getD 1 default).size ∧
    ((lotsAfter fifoLots ([fifoSell].take 1)).getD 0 default).size
        ≤ (fifoLots.getD 0 default).size :=
  ⟨(claim_C9_lot_state fifoLots [fifoSell] (by decide) (by decide)).1 0 1,
   (claim_C9_lot_state fifoLots [fifoSell] (by decide) (by decide)).2.1 1 1,
   (claim_C9_lot_state fifoLots [fifoSell] (by decide) (by decide)).2.2.1 1 0⟩

/-- C10: after ingestion the ledger is sorted by datetime and contains no
two rows with the same (Datetime, Pair, Side) key; every ingested row is
represented by exactly one row with its key (so two distinct trades
sharing the key collapse into one row); and re-ingesting rows already
present leaves the (sorted, key-deduplicated) ledger unchanged. -/
theorem claim_C10_ingestion_invariant (ledger df : List Tx) :
    (extendTransactions ledger df).Pairwise txLE ∧
    ((extendTransactions ledger df).map txKey).Nodup ∧
    (∀ t ∈ ledger ++ df, ∃ u ∈ extendTransactions ledger df,
        txKey u = txKey t) ∧
    (ledger.Pairwise txLE → (ledger.map txKey).Nodup →
      (∀ t ∈ df, t ∈ ledger) → extendTransactions ledger df = ledger) := by
  refine ⟨?_, ?_, ?_, ?_⟩
  · have hs : ((ledger ++ df).insertionSort txLE).Pairwise txLE :=
      List.sorted_insertionSort txLE (ledger ++ df)
    exact List.Pairwise.sublist (dedupByKey_sublist [] _) hs
  · exact (dedupByKey_keys [] _).1
  · intro t ht
    have hmem : t ∈ (ledger ++ df).insertionSort txLE :=
      (List.mem_insertionSort txLE).mpr ht
    rcases dedupByKey_cover [] _ t hmem with h | h
    · simp at h
    · exact h
  · intro hsort hnd hsub
    rw [extendTransactions, insertionSort_append_foldr]
    apply dedup_foldr_eq ledger [] _ hsort hnd
    · intro k _ hc
      simp at hc
    · intro m hm
      exact Or.inr (hsub m ((List.mem_insertionSort txLE).mp hm))

/-- Witness for C10: two same-key trades collapse to one row, and
re-ingesting an existing row is a no-op. -/
theorem claim_C10_witness :
    (extendTransactions
        [mkTx 100 "AAA" .buy 1 (-10), mkTx 100 "AAA" .buy 5 (-99)] []).length
      = 1 ∧
    extendTransactions c10Ledger c10Batch = c10Ledger :=
  ⟨by decide,
    (claim_C10_ingestion_invariant c10Ledger c10Batch).2.2.2
      (by decide) (by decide) (by decide)⟩

end

end CryptoPortfolio
